import Mathlib

/-!
Verification of the cuneifyplus transliteration engine (cuneify_interface.py)
against its natural-language specification.

Modelling conventions:
* Python strings are modelled as `List Char`; Python `bytes` values that hold
  UTF-8 text are likewise modelled as `List Char` (so `.decode('utf-8')` is the
  identity in the model).
* Python exceptions are modelled with `Except PyExc`.
* Python dicts keyed by strings are modelled as association lists
  `List (key × value)` with first-match lookup; insertion of a fresh key
  appends at the end, and overwriting keeps the key position, matching the
  insertion-order semantics of Python 3.7+ dicts and of `OrderedDict`.
* Encoding note: cuneify_interface.py declares `# -*- coding: utf8 -*-`.  In
  the checked-out copy every non-ASCII literal appears double-encoded, UTF-8
  bytes re-read as Mac Roman (for example the acute a appears as the two
  characters U+221A U+00B0).  The definitions below use the decoded UTF-8
  characters the file declares and the surrounding spec text quotes.
-/

set_option autoImplicit false

namespace Cuneify

/-- The three exception classes raised by cuneify_interface.py, plus a marker
for a deserialization failure at cache load that is not an EOFError (those are
the only ones `FileCuneiformCache.__enter__` catches). -/
inductive PyExc where
  | notAToken : PyExc
  | transliterationNotUnderstood : PyExc
  | unrecognisedSymbol : List Char → PyExc
  | otherLoadError : PyExc
deriving DecidableEq

/-- `TOKEN_SEPARATORS = ('-', ' ', '.')`; the regex `-| |\.` matches exactly
these three single characters. -/
def TOKEN_SEPARATORS : List Char := ['-', ' ', '.']

/-- One character matched by `TOKEN_REGEX`. -/
def is_separator (c : Char) : Bool := c = '-' || c = ' ' || c = '.'

/-- Characters stripped by Python `str.strip()` with no argument (ASCII
whitespace; the inputs at issue contain no exotic Unicode spaces). -/
def py_is_space (c : Char) : Bool :=
  c = ' ' || c = '\t' || c = '\n' || c = '\r' || c = '\x0b' || c = '\x0c'

/-- Python `str.strip()`: drop leading and trailing whitespace. -/
def py_strip (s : List Char) : List Char :=
  ((s.dropWhile py_is_space).reverse.dropWhile py_is_space).reverse

/-- `re.split(TOKEN_REGEX, s)`: the pieces of `s` between separator
characters.  Splitting the empty string yields one empty piece. -/
def re_split : List Char → List (List Char)
  | [] => [[]]
  | c :: cs =>
    if is_separator c then [] :: re_split cs
    else
      match re_split cs with
      | [] => [[c]]
      | t :: ts => (c :: t) :: ts

/-- `re.findall(TOKEN_REGEX, s)`: the separator characters of `s`, in order,
each as a one-character string. -/
def re_findall : List Char → List (List Char)
  | [] => []
  | c :: cs => if is_separator c then [c] :: re_findall cs else re_findall cs

theorem re_split_ne_nil (s : List Char) : re_split s ≠ [] := by
  cases s with
  | nil => simp [re_split]
  | cons c cs =>
    simp only [re_split]
    by_cases h : is_separator c = true
    · simp [h]
    · simp only [h]
      cases re_split cs <;> simp

theorem re_split_length (s : List Char) :
    (re_split s).length = (re_findall s).length + 1 := by
  induction s with
  | nil => simp [re_split, re_findall]
  | cons c cs ih =>
    simp only [re_split, re_findall]
    by_cases h : is_separator c = true
    · simp [h, ih]
    · simp only [h, if_false]
      have hne := re_split_ne_nil cs
      cases hsp : re_split cs with
      | nil => exact absurd hsp hne
      | cons t ts =>
        have := ih
        rw [hsp] at this
        simpa using this

theorem re_split_findall_reconstruct (s : List Char) :
    (List.zipWith (fun t sep => t ++ sep) (re_split s) (re_findall s ++ [[]])).flatten = s := by
  induction s with
  | nil => simp [re_split, re_findall]
  | cons c cs ih =>
    cases hc : is_separator c with
    | true =>
      simp only [re_split, re_findall, hc]
      simpa using ih
    | false =>
      have hne := re_split_ne_nil cs
      cases hsp : re_split cs with
      | nil => exact absurd hsp hne
      | cons t ts =>
        cases hfa : re_findall cs ++ [[]] with
        | nil => simp at hfa
        | cons sep seps =>
          rw [hsp, hfa] at ih
          simp only [re_split, re_findall, hc, hsp, Bool.false_eq_true, if_false]
          rw [hfa]
          simp only [List.zipWith_cons_cons, List.flatten_cons] at ih ⊢
          rw [← ih]
          simp

/-- Claim C2: for every line L, the tokenizer used by
`cuneify_line_structured` (a `re.split` for the tokens, a `re.findall` plus an
appended empty string for the separators, both applied to `L.strip()`)
produces equally many tokens and separators, and concatenating each token with
its separator in order reconstructs `L.strip()` exactly. -/
theorem C2_tokenize_length_and_reconstruct (L : List Char) :
    (re_split (py_strip L)).length = (re_findall (py_strip L) ++ [[]]).length ∧
    (List.zipWith (fun t sep => t ++ sep)
        (re_split (py_strip L)) (re_findall (py_strip L) ++ [[]])).flatten = py_strip L := by
  constructor
  · simp [re_split_length]
  · exact re_split_findall_reconstruct (py_strip L)

/-- `str.replace(original, replacement)` for a single-character pattern:
every occurrence of `o` is replaced by the string `r`.  All keys of the
replacement tables below are single characters. -/
def replace_char (o : Char) (r : List Char) : List Char → List Char
  | [] => []
  | c :: cs => (if c = o then r else [c]) ++ replace_char o r cs

/-- `REPLACEMENT_MAP` after the import-time uppercase extension.  Keys whose
`str.upper()` is themselves (subscript digits, quotes, dashes) are overwritten
in place with the unchanged value; the five cased letters gain fresh
uppercase entries, appended in iteration order. -/
def REPLACEMENT_MAP : List (Char × List Char) :=
  [('š', ['s', 'z']), ('ṣ', ['s', ',']), ('ṭ', ['t', ',']), ('ĝ', ['j']), ('ḫ', ['h']),
   ('₀', ['0']), ('₁', ['1']), ('₂', ['2']), ('₃', ['3']), ('₄', ['4']),
   ('₅', ['5']), ('₆', ['6']), ('₇', ['7']), ('₈', ['8']), ('₉', ['9']),
   ('‘', ['\'']), ('’', ['\'']), ('ʾ', ['\'']), ('“', ['"']), ('”', ['"']),
   ('–', ['-']), ('—', ['-']),
   ('Š', ['S', 'Z']), ('Ṣ', ['S', ',']), ('Ṭ', ['T', ',']), ('Ĝ', ['J']), ('Ḫ', ['H'])]

/-- `ACUTE_VOWELS` after the import-time uppercase extension. -/
def ACUTE_VOWELS : List (Char × Char) :=
  [('á', 'a'), ('é', 'e'), ('í', 'i'), ('ú', 'u'),
   ('Á', 'A'), ('É', 'E'), ('Í', 'I'), ('Ú', 'U')]

/-- `GRAVE_VOWELS` after the import-time uppercase extension. -/
def GRAVE_VOWELS : List (Char × Char) :=
  [('à', 'a'), ('è', 'e'), ('ì', 'i'), ('ù', 'u'),
   ('À', 'A'), ('È', 'E'), ('Ì', 'I'), ('Ù', 'U')]

/-- The first loop of `_remove_abbreviations`: apply every rule of
`REPLACEMENT_MAP` in iteration order. -/
def apply_replacements : List (Char × List Char) → List Char → List Char
  | [], s => s
  | (o, r) :: rest, s => apply_replacements rest (replace_char o r s)

/-- The accent loops of `_remove_abbreviations`: for each vowel rule in
iteration order, if the accented vowel occurs in the current string, append
the suffix digit, then replace the accented vowel by its base letter. -/
def apply_accents (suffix : Char) : List (Char × Char) → List Char → List Char
  | [], s => s
  | (o, r) :: rest, s =>
    apply_accents suffix rest
      (replace_char o [r] (if o ∈ s then s ++ [suffix] else s))

/-- `_remove_abbreviations(transliteration)`: reject multi-token input, then
apply the replacement table, the acute-vowel loop (suffix `2`), and the
grave-vowel loop (suffix `3`). -/
def remove_abbreviations (transliteration : List Char) : Except PyExc (List Char) :=
  if TOKEN_SEPARATORS.any (fun sep => transliteration.elem sep) then
    .error .notAToken
  else
    .ok (apply_accents '3' GRAVE_VOWELS
          (apply_accents '2' ACUTE_VOWELS
            (apply_replacements REPLACEMENT_MAP transliteration)))

/-- Association-list model of a Python dict / OrderedDict: first-match
lookup. -/
def dict_get {α β : Type} [DecidableEq α] : List (α × β) → α → Option β
  | [], _ => none
  | (k, v) :: rest, key => if k = key then some v else dict_get rest key

/-- `d[k] = v` on a Python dict: overwrite in place if the key is present,
otherwise append at the end (insertion order). -/
def dict_set {α β : Type} [DecidableEq α] : List (α × β) → α → β → List (α × β)
  | [], key, v => [(key, v)]
  | (k, w) :: rest, key, v =>
    if k = key then (key, v) :: rest else (k, w) :: dict_set rest key v

/-- `d.update(other)`: set every entry of `other` in iteration order. -/
def dict_update {α β : Type} [DecidableEq α]
    (d other : List (α × β)) : List (α × β) :=
  other.foldl (fun acc p => dict_set acc p.1 p.2) d

/-- The mutable state of `CuneiformCacheBase`: the
`transliteration_to_cuneiform` dict and the `_cache_modified` flag. -/
structure CacheState where
  translit_to_cuneiform : List (List Char × List Char)
  cache_modified : Bool
deriving DecidableEq

/-- `CuneiformCacheBase.__init__`: empty mapping, clean flag. -/
def CacheState.init : CacheState := ⟨[], false⟩

/-- `get_stripped_transliteration`: remove the marker characters, iterating
`chain(('['), ('!', '?', ']'))` and replacing each with the empty string. -/
def get_stripped_transliteration (t : List Char) : List Char :=
  replace_char ']' [] (replace_char '?' [] (replace_char '!' [] (replace_char '[' [] t)))

/-- `_should_pass_through`: true when the lowercased character set is exactly
the singleton x, or the token is one of the four standalone markers.  (For
every character relevant here Python `str.lower` and `Char.toLower` agree on
whether the result is the letter x.) -/
def should_pass_through (t : List Char) : Bool :=
  (!t.isEmpty && t.all (fun c => c.toLower = 'x')) ||
    (t = ['?'] || t = ['!'] || t = ['['] || t = [']'])

/-- `CuneiformCacheBase._get_cuneiform_bytes` as found in src: empty key maps
to the empty byte string; a key missing from the dict raises
`UnrecognisedSymbol`; otherwise the cached value is returned.  The state is
threaded explicitly since the Python method has access to `self`. -/
def get_cuneiform_bytes (self : CacheState) (transliteration : List Char) :
    Except PyExc (List Char) × CacheState :=
  if transliteration = [] then (.ok [], self)
  else
    match dict_get self.translit_to_cuneiform transliteration with
    | none => (.error (.unrecognisedSymbol transliteration), self)
    | some v => (.ok v, self)

/-- The character-sorting loop of `get_cuneiform`: returns the buffers
(start, end, stripped) built left to right. -/
def strip_loop : List Char → List Char × List Char × List Char
  | [] => ([], [], [])
  | c :: cs =>
    let r := strip_loop cs
    if c = '[' then (c :: r.1, r.2.1, r.2.2)
    else if c = '!' || c = '?' || c = ']' then (r.1, c :: r.2.1, r.2.2)
    else (r.1, r.2.1, c :: r.2.2)

/-- `CuneiformCacheBase.get_cuneiform`: pass-through tokens come back
unchanged; otherwise the marker characters are buffered to the start and end,
the stripped remainder is resolved through `_get_cuneiform_bytes`, and the
markers are reattached unless `include_extra_chars` is false. -/
def get_cuneiform (self : CacheState) (transliteration : List Char)
    (include_extra_chars : Bool) : Except PyExc (List Char) × CacheState :=
  if should_pass_through transliteration then (.ok transliteration, self)
  else
    let bufs := strip_loop transliteration
    match get_cuneiform_bytes self bufs.2.2 with
    | (.error e, s2) => (.error e, s2)
    | (.ok cuneiform, s2) =>
      if !include_extra_chars then (.ok cuneiform, s2)
      else (.ok (bufs.1 ++ cuneiform ++ bufs.2.1), s2)

/-- Discriminator for `Except` results (Python: did the call raise?). -/
def except_is_ok {ε α : Type} : Except ε α → Bool
  | .ok _ => true
  | .error _ => false

/-- Convert an `Except` result to an `Option` (Python: `symbol = None` on a
caught exception). -/
def except_to_option {ε α : Type} : Except ε α → Option α
  | .ok a => some a
  | .error _ => none

/-- The token loop of `cuneify_line_structured`.  The Python code catches
`(UnrecognisedSymbol, TransliterationNotUnderstood)`; the cache core in src
can only raise `UnrecognisedSymbol` here, so catching every error of
`get_cuneiform` is faithful. -/
def cuneify_line_loop (self : CacheState) :
    List (List Char) → CacheState × List (Option (List Char)) × List (List Char)
  | [] => (self, [], [])
  | token :: rest =>
    match get_cuneiform self token true with
    | (.ok symbol, s2) =>
      let r := cuneify_line_loop s2 rest
      (r.1, some symbol :: r.2.1, r.2.2)
    | (.error _, s2) =>
      let r := cuneify_line_loop s2 rest
      (r.1, none :: r.2.1, token :: r.2.2)

/-- `cuneify_line_structured(cache, transliteration)`: strip the line, split
tokens and separators, and resolve each token through `get_cuneiform`,
collecting `None` placeholders and unrecognized tokens. -/
def cuneify_line_structured (self : CacheState) (transliteration : List Char) :
    List (List Char) × List (List Char) × List (Option (List Char)) × List (List Char) :=
  let t := py_strip transliteration
  let tokens := re_split t
  let separators := re_findall t ++ [[]]
  let r := cuneify_line_loop self tokens
  (tokens, separators, r.2.1, r.2.2)

theorem get_cuneiform_bytes_state_eq (st : CacheState) (t : List Char) :
    (get_cuneiform_bytes st t).2 = st := by
  unfold get_cuneiform_bytes
  split
  · rfl
  · split <;> rfl

theorem get_cuneiform_state_eq (st : CacheState) (t : List Char) (e : Bool) :
    (get_cuneiform st t e).2 = st := by
  unfold get_cuneiform
  split
  · rfl
  · have hb := get_cuneiform_bytes_state_eq st (strip_loop t).2.2
    rcases hr : get_cuneiform_bytes st (strip_loop t).2.2 with ⟨r, s2⟩
    rw [hr] at hb
    simp only at hb
    subst hb
    cases r with
    | error e2 => simp [hr]
    | ok c =>
      simp only [hr]
      split <;> rfl

theorem cuneify_line_loop_eq (st : CacheState) (tokens : List (List Char)) :
    cuneify_line_loop st tokens =
      (st,
       tokens.map (fun t => except_to_option (get_cuneiform st t true).1),
       tokens.filter (fun t => !except_is_ok (get_cuneiform st t true).1)) := by
  induction tokens with
  | nil => rfl
  | cons t ts ih =>
    have hst := get_cuneiform_state_eq st t true
    rcases hg : get_cuneiform st t true with ⟨r, s2⟩
    rw [hg] at hst
    simp only at hst
    subst hst
    cases r with
    | ok sym =>
      simp [cuneify_line_loop, hg, ih, except_to_option, except_is_ok]
    | error e =>
      simp [cuneify_line_loop, hg, ih, except_to_option, except_is_ok]

/-- Claim C1 (amended): `cuneify_line_structured` resolves each token `t` of
the line by `get_cuneiform` on `t` itself — the normalizer
`_remove_abbreviations` is never invoked in the rendering path, so the
renderer resolves `lookup(t)`, not `lookup(normalize(t))`. -/
theorem C1_renderer_resolves_raw_tokens (st : CacheState) (line : List Char) :
    (cuneify_line_structured st line).2.2.1 =
      (re_split (py_strip line)).map
        (fun t => except_to_option (get_cuneiform st t true).1) ∧
    (cuneify_line_structured st line).2.2.2 =
      (re_split (py_strip line)).filter
        (fun t => !except_is_ok (get_cuneiform st t true).1) := by
  simp only [cuneify_line_structured]
  rw [cuneify_line_loop_eq]
  exact ⟨rfl, rfl⟩

/-- A cache that resolves the normalized key `a2` but not the raw token. -/
def c1_cache : CacheState := ⟨[(['a', '2'], ['G'])], false⟩

/-- Claim C1 (counterexample): on the line consisting of the single token with
an acute a, the renderer reports the token unresolved even though the cache
resolves its normalized form `a2` — so the renderer resolves `lookup(t)`, not
`lookup(normalize(t))` as the claim states. -/
theorem C1_normalize_skipped_counterexample :
    (cuneify_line_structured c1_cache ['á']).2.2.1 = [none] ∧
    (cuneify_line_structured c1_cache ['á']).2.2.2 = [['á']] ∧
    remove_abbreviations ['á'] = .ok ['a', '2'] ∧
    (get_cuneiform c1_cache ['a', '2'] true).1 = .ok ['G'] ∧
    except_to_option (get_cuneiform c1_cache ['a', '2'] true).1 ≠ none := by
  refine ⟨rfl, rfl, rfl, rfl, ?_⟩
  intro h
  simp [get_cuneiform, get_cuneiform_bytes, c1_cache, should_pass_through,
    strip_loop, dict_get, except_to_option] at h

/-- Claim C4: in the offline cache policy, for a non-pass-through token, after
marker stripping: the empty key yields the empty glyph sequence; otherwise the
lookup raises `UnrecognisedSymbol` carrying the key exactly when the key is
absent from the in-memory mapping, and returns the mapped glyph sequence when
it is present. -/
theorem C4_offline_lookup (st : CacheState) (t : List Char)
    (_hpass : should_pass_through t = false) :
    ((strip_loop t).2.2 = [] →
      (get_cuneiform_bytes st (strip_loop t).2.2).1 = .ok []) ∧
    ((strip_loop t).2.2 ≠ [] →
      (((get_cuneiform_bytes st (strip_loop t).2.2).1 =
          .error (.unrecognisedSymbol (strip_loop t).2.2)) ↔
        dict_get st.translit_to_cuneiform (strip_loop t).2.2 = none) ∧
      (∀ v, dict_get st.translit_to_cuneiform (strip_loop t).2.2 = some v →
        (get_cuneiform_bytes st (strip_loop t).2.2).1 = .ok v)) := by
  constructor
  · intro h
    simp [get_cuneiform_bytes, h]
  · intro h
    constructor
    · cases hd : dict_get st.translit_to_cuneiform (strip_loop t).2.2 with
      | none => simp [get_cuneiform_bytes, h, hd]
      | some v => simp [get_cuneiform_bytes, h, hd]
    · intro v hv
      simp [get_cuneiform_bytes, h, hv]

/-- Witness for C4 at the token `[zz]` against the empty cache: the stripped
key `zz` is absent, so the lookup raises `UnrecognisedSymbol zz`. -/
theorem C4_offline_lookup_witness :
    should_pass_through ['[', 'z', 'z', ']'] = false ∧
    ((strip_loop ['[', 'z', 'z', ']']).2.2 ≠ [] →
      (((get_cuneiform_bytes CacheState.init (strip_loop ['[', 'z', 'z', ']']).2.2).1 =
          .error (.unrecognisedSymbol (strip_loop ['[', 'z', 'z', ']']).2.2)) ↔
        dict_get CacheState.init.translit_to_cuneiform
          (strip_loop ['[', 'z', 'z', ']']).2.2 = none) ∧
      (∀ v, dict_get CacheState.init.translit_to_cuneiform
          (strip_loop ['[', 'z', 'z', ']']).2.2 = some v →
        (get_cuneiform_bytes CacheState.init (strip_loop ['[', 'z', 'z', ']']).2.2).1 =
          .ok v)) :=
  ⟨by decide, (C4_offline_lookup CacheState.init ['[', 'z', 'z', ']'] (by decide)).2⟩

/-- Claim C5: for a cache resolving the base key `UD`, looking up `[UD]` with
extra characters included returns the opening bracket, the glyph for `UD`,
then the closing bracket; with `include_extra_chars = False` it returns the
bare glyph. -/
theorem C5_marker_round_trip (st : CacheState) (g : List Char)
    (h : dict_get st.translit_to_cuneiform ['U', 'D'] = some g) :
    (get_cuneiform st ['[', 'U', 'D', ']'] true).1 = .ok ('[' :: (g ++ [']'])) ∧
    (get_cuneiform st ['[', 'U', 'D', ']'] false).1 = .ok g := by
  have hpass : should_pass_through ['[', 'U', 'D', ']'] = false := by decide
  have hstrip : strip_loop ['[', 'U', 'D', ']'] = (['['], [']'], ['U', 'D']) := by decide
  constructor <;>
    simp [get_cuneiform, get_cuneiform_bytes, hpass, hstrip, h]

/-- Witness for C5 on a one-entry cache. -/
theorem C5_marker_round_trip_witness :
    dict_get (CacheState.mk [(['U', 'D'], ['𒌓'])] false).translit_to_cuneiform
      ['U', 'D'] = some ['𒌓'] ∧
    (get_cuneiform (CacheState.mk [(['U', 'D'], ['𒌓'])] false)
        ['[', 'U', 'D', ']'] true).1 = .ok ('[' :: (['𒌓'] ++ [']'])) ∧
    (get_cuneiform (CacheState.mk [(['U', 'D'], ['𒌓'])] false)
        ['[', 'U', 'D', ']'] false).1 = .ok ['𒌓'] :=
  ⟨by decide,
   C5_marker_round_trip (CacheState.mk [(['U', 'D'], ['𒌓'])] false) ['𒌓'] (by decide)⟩

/-- Claim C6: a token consisting solely of the letter x in any mixture of
cases, or one of the standalone markers, is returned unchanged by
`get_cuneiform`; the cache state is untouched and the result does not depend
on the mapping at all. -/
theorem C6_pass_through (st st' : CacheState) (t : List Char) (e : Bool)
    (h : (t ≠ [] ∧ ∀ c ∈ t, c.toLower = 'x') ∨
      t = ['?'] ∨ t = ['!'] ∨ t = ['['] ∨ t = [']']) :
    get_cuneiform st t e = (.ok t, st) ∧
    (get_cuneiform st t e).1 = (get_cuneiform st' t e).1 := by
  have hs : should_pass_through t = true := by
    rcases h with ⟨hne, hx⟩ | h | h | h | h
    · have h1 : t.isEmpty = false := by
        cases t with
        | nil => exact absurd rfl hne
        | cons a as => rfl
      have h2 : t.all (fun c => c.toLower = 'x') = true := by
        rw [List.all_eq_true]
        intro c hc
        exact decide_eq_true (hx c hc)
      simp [should_pass_through, h1, h2]
    · rw [h]; decide
    · rw [h]; decide
    · rw [h]; decide
    · rw [h]; decide
  constructor <;> simp [get_cuneiform, hs]

/-- Witness for C6 at the mixed-case token `xXx`: returned unchanged
regardless of the cache contents. -/
theorem C6_pass_through_witness :
    ((['x', 'X', 'x'] : List Char) ≠ [] ∧
      ∀ c ∈ (['x', 'X', 'x'] : List Char), c.toLower = 'x') ∧
    get_cuneiform (CacheState.mk [(['x', 'X', 'x'], ['𒀀'])] false) ['x', 'X', 'x'] true =
      (.ok ['x', 'X', 'x'], CacheState.mk [(['x', 'X', 'x'], ['𒀀'])] false) ∧
    (get_cuneiform (CacheState.mk [(['x', 'X', 'x'], ['𒀀'])] false) ['x', 'X', 'x'] true).1 =
      (get_cuneiform CacheState.init ['x', 'X', 'x'] true).1 :=
  ⟨by decide,
   C6_pass_through (CacheState.mk [(['x', 'X', 'x'], ['𒀀'])] false)
     CacheState.init ['x', 'X', 'x'] true (.inl (by decide))⟩

/-- Claim C10: `get_cuneiform` leaves the cache state unchanged — the
transliteration mapping and the dirty flag hold the same values after the
call as before, on every path (pass-through, resolution, or raise); in
particular no lookup in this core ever sets the dirty flag. -/
theorem C10_get_cuneiform_frame (st : CacheState) (t : List Char) (e : Bool) :
    (get_cuneiform st t e).2.translit_to_cuneiform = st.translit_to_cuneiform ∧
    (get_cuneiform st t e).2.cache_modified = st.cache_modified := by
  rw [get_cuneiform_state_eq st t e]
  exact ⟨rfl, rfl⟩

/-- What `pickle.load` finds in the backing-store file: a stored mapping, or
corrupted content.  `FileCuneiformCache.__enter__` catches only `EOFError`, so
corruption is split by the exception type deserialization raises: an
end-of-input error (truncated pickle) versus any other failure
(`UnpicklingError` and friends on malformed bytes). -/
inductive StoreContent where
  | data : List (List Char × List Char) → StoreContent
  | corruptEOF : StoreContent
  | corruptOther : StoreContent
deriving DecidableEq

/-- `FileCuneiformCache.__init__` + `__enter__`: start from the empty mapping;
if the cache file exists, load it and `update` the mapping.  An `EOFError`
during load is caught: the corrupt file is reported and deleted and the cache
stays empty.  Any other deserialization failure propagates out of `__enter__`.
Returns the cache state and the file system state. -/
def file_enter (cache_file : Option StoreContent) :
    Except PyExc (CacheState × Option StoreContent) :=
  match cache_file with
  | none => .ok (CacheState.init, none)
  | some (.data stored) =>
    .ok (⟨dict_update CacheState.init.translit_to_cuneiform stored, false⟩,
         some (.data stored))
  | some .corruptEOF => .ok (CacheState.init, none)
  | some .corruptOther => .error .otherLoadError

/-- `FileCuneiformCache.__exit__` + `_write_cache_file`: if the cache was
modified and the cache is not read-only, pickle the whole mapping over the
file and clear the dirty flag.  In read-only mode `_write_cache_file` returns
before the dump, leaving both the file and the flag untouched. -/
def file_exit (self : CacheState) (read_only : Bool)
    (cache_file : Option StoreContent) : CacheState × Option StoreContent :=
  if self.cache_modified then
    if read_only then (self, cache_file)
    else (⟨self.translit_to_cuneiform, false⟩, some (.data self.translit_to_cuneiform))
  else (self, cache_file)

/-- Claim C8 (counterexample): a present backing store whose deserialization
fails with an exception other than `EOFError` — for example `UnpicklingError`
on a file of garbage bytes — makes `__enter__` raise: opening the cache does
fail fatally on such corruption, contrary to the claim. -/
theorem C8_corruption_counterexample :
    file_enter (some StoreContent.corruptOther) = .error PyExc.otherLoadError ∧
    except_is_ok (file_enter (some StoreContent.corruptOther)) = false :=
  ⟨rfl, rfl⟩

/-- Claim C8 (amended): when the backing store is present but deserialization
fails with an end-of-input error (`EOFError`, a truncated pickle), `open()`
logs, deletes the corrupt store and completes successfully with an empty
in-memory mapping; an absent store likewise yields an empty mapping.  Other
deserialization failures propagate. -/
theorem C8_eof_corruption_recovered :
    file_enter (some StoreContent.corruptEOF) = .ok (CacheState.init, none) ∧
    file_enter none = .ok (CacheState.init, none) :=
  ⟨rfl, rfl⟩

/-- `contains_ascii(byte_array, ignore_space)`: true when some byte other
than an ignored space is an ASCII code point.  Iterating a Python `bytes`
object yields ints, and an int is never a key of the string-keyed replacement
tables, so the trailing membership test after the loop is always false and
the function reduces to the loop. -/
def contains_ascii (byte_array : List Char) (ignore_space : Bool) : Bool :=
  byte_array.any (fun character =>
    !(ignore_space && character = ' ') && character.toNat < 128)

/-- Modelled from the spec: the fetch-augmented `_get_cuneiform_bytes` policy
is absent from src (only its exception class `TransliterationNotUnderstood`,
its validator `contains_ascii` and its catching callers remain), so it is
modelled from section 4.3 of the spec: on a key absent from the mapping, call
the external remote-lookup collaborator; on success store the result under
the key and mark the cache dirty before returning it; on remote-reported
non-understanding fail with `TransliterationNotUnderstood`; on a result that
still contains plain-text characters fail with `UnrecognisedSymbol` without
caching.  The returned boolean records whether the remote collaborator was
invoked. -/
def get_cuneiform_bytes_fetch (remote : List Char → Option (List Char))
    (self : CacheState) (transliteration : List Char) :
    Except PyExc (List Char) × CacheState × Bool :=
  if transliteration = [] then (.ok [], self, false)
  else
    match dict_get self.translit_to_cuneiform transliteration with
    | some v => (.ok v, self, false)
    | none =>
      match remote transliteration with
      | none => (.error .transliterationNotUnderstood, self, true)
      | some fetched =>
        if contains_ascii fetched true then
          (.error (.unrecognisedSymbol transliteration), self, true)
        else
          (.ok fetched,
           ⟨dict_set self.translit_to_cuneiform transliteration fetched, true⟩,
           true)

theorem dict_set_of_not_mem {α β : Type} [DecidableEq α]
    (m : List (α × β)) (k : α) (v : β) (h : k ∉ m.map Prod.fst) :
    dict_set m k v = m ++ [(k, v)] := by
  induction m with
  | nil => rfl
  | cons p rest ih =>
    cases p with
    | mk k2 w =>
      simp only [List.map_cons, List.mem_cons] at h
      push_neg at h
      have hne : ¬ k2 = k := fun he => h.1 he.symm
      simp only [dict_set, if_neg hne]
      rw [ih h.2]
      rfl

theorem dict_update_of_disjoint {α β : Type} [DecidableEq α] :
    ∀ (m acc : List (α × β)),
    (m.map Prod.fst).Nodup →
    (∀ p ∈ m, p.1 ∉ acc.map Prod.fst) →
    dict_update acc m = acc ++ m
  | [], acc, _, _ => by simp [dict_update]
  | (k, v) :: rest, acc, hnd, hdisj => by
    simp only [List.map_cons, List.nodup_cons] at hnd
    have hk : k ∉ acc.map Prod.fst := hdisj (k, v) (List.mem_cons_self _ _)
    have hstep : dict_set acc k v = acc ++ [(k, v)] := dict_set_of_not_mem acc k v hk
    have hrest : dict_update (acc ++ [(k, v)]) rest = (acc ++ [(k, v)]) ++ rest := by
      apply dict_update_of_disjoint rest (acc ++ [(k, v)]) hnd.2
      intro p hp
      simp only [List.map_append, List.mem_append, List.map_cons, List.map_nil,
        List.mem_singleton]
      rintro (hin | hkk)
      · exact hdisj p (List.mem_cons_of_mem _ hp) hin
      · exact hnd.1 (hkk ▸ List.mem_map_of_mem Prod.fst hp)
    calc dict_update acc ((k, v) :: rest)
        = dict_update (dict_set acc k v) rest := rfl
      _ = dict_update (acc ++ [(k, v)]) rest := by rw [hstep]
      _ = (acc ++ [(k, v)]) ++ rest := hrest
      _ = acc ++ (k, v) :: rest := by simp

theorem dict_update_nil {α β : Type} [DecidableEq α]
    (m : List (α × β)) (h : (m.map Prod.fst).Nodup) :
    dict_update [] m = m := by
  have := dict_update_of_disjoint m [] h (by simp)
  simpa using this

theorem dict_get_set_self {α β : Type} [DecidableEq α]
    (m : List (α × β)) (k : α) (v : β) :
    dict_get (dict_set m k v) k = some v := by
  induction m with
  | nil => simp [dict_set, dict_get]
  | cons p rest ih =>
    cases p with
    | mk k2 w =>
      by_cases h : k2 = k
      · simp [dict_set, dict_get, h]
      · simp [dict_set, dict_get, h, ih]

theorem mem_keys_dict_set {α β : Type} [DecidableEq α]
    (l : List (α × β)) (a c : α) (b : β) (hne : c ≠ a) :
    c ∈ (dict_set l a b).map Prod.fst → c ∈ l.map Prod.fst := by
  induction l with
  | nil =>
    intro h
    simp only [dict_set, List.map_cons, List.map_nil, List.mem_singleton] at h
    exact absurd h hne
  | cons q qs ihq =>
    cases q with
    | mk a2 b2 =>
      intro h
      by_cases ha : a2 = a
      · have hd : dict_set ((a2, b2) :: qs) a b = (a, b) :: qs := by
          simp [dict_set, ha]
        rw [hd, List.map_cons, List.mem_cons] at h
        rw [List.map_cons, List.mem_cons]
        rcases h with h | h
        · exact absurd h hne
        · exact Or.inr h
      · have hd : dict_set ((a2, b2) :: qs) a b = (a2, b2) :: dict_set qs a b := by
          simp [dict_set, ha]
        rw [hd, List.map_cons, List.mem_cons] at h
        rw [List.map_cons, List.mem_cons]
        rcases h with h | h
        · exact Or.inl h
        · exact Or.inr (ihq h)

theorem dict_set_keys_nodup {α β : Type} [DecidableEq α]
    (m : List (α × β)) (k : α) (v : β) (h : (m.map Prod.fst).Nodup) :
    ((dict_set m k v).map Prod.fst).Nodup := by
  induction m with
  | nil => simp [dict_set]
  | cons p rest ih =>
    cases p with
    | mk k2 w =>
      simp only [List.map_cons, List.nodup_cons] at h
      by_cases hk : k2 = k
      · subst hk
        simpa [dict_set] using h
      · simp only [dict_set, if_neg hk, List.map_cons, List.nodup_cons]
        exact ⟨fun hmem => h.1 (mem_keys_dict_set rest k k2 v hk hmem), ih h.2⟩

/-- Claim C3 (cache round-trip, fetch-augmented policy modelled from the
spec): a key absent from an open writable cache whose lookup succeeds by
fetching from the remote collaborator is persisted by `close()`, and after a
fresh `open()` of the written backing store the same glyph sequence is
returned without invoking the remote collaborator again. -/
theorem C3_cache_round_trip (remote : List Char → Option (List Char))
    (st : CacheState) (k g : List Char)
    (hnodup : (st.translit_to_cuneiform.map Prod.fst).Nodup)
    (hne : k ≠ [])
    (habsent : dict_get st.translit_to_cuneiform k = none)
    (hremote : remote k = some g)
    (hvalid : contains_ascii g true = false) :
    ∃ st1 : CacheState,
      get_cuneiform_bytes_fetch remote st k = (.ok g, st1, true) ∧
      st1.cache_modified = true ∧
      ∀ file0 : Option StoreContent, ∃ m1,
        file_exit st1 false file0 = (⟨m1, false⟩, some (.data m1)) ∧
        ∃ st2 : CacheState,
          file_enter (some (.data m1)) = .ok (st2, some (.data m1)) ∧
          get_cuneiform_bytes_fetch remote st2 k = (.ok g, st2, false) := by
  refine ⟨⟨dict_set st.translit_to_cuneiform k g, true⟩, ?_, rfl, ?_⟩
  · simp [get_cuneiform_bytes_fetch, hne, habsent, hremote, hvalid]
  · intro file0
    refine ⟨dict_set st.translit_to_cuneiform k g, by simp [file_exit], ?_⟩
    have hnd1 : ((dict_set st.translit_to_cuneiform k g).map Prod.fst).Nodup :=
      dict_set_keys_nodup _ k g hnodup
    refine ⟨⟨dict_set st.translit_to_cuneiform k g, false⟩, ?_, ?_⟩
    · simp only [file_enter, CacheState.init]
      rw [dict_update_nil _ hnd1]
    · simp [get_cuneiform_bytes_fetch, hne, dict_get_set_self]

/-- Witness for C3: the key `ud` is absent from the empty cache, the remote
collaborator resolves it to a cuneiform glyph, and the round trip holds. -/
theorem C3_cache_round_trip_witness :
    ((CacheState.init.translit_to_cuneiform.map Prod.fst).Nodup ∧
      (['u', 'd'] : List Char) ≠ [] ∧
      dict_get CacheState.init.translit_to_cuneiform ['u', 'd'] = none ∧
      (fun t => if t = ['u', 'd'] then some ['𒌓'] else none) ['u', 'd'] = some ['𒌓'] ∧
      contains_ascii ['𒌓'] true = false) ∧
    ∃ st1 : CacheState,
      get_cuneiform_bytes_fetch
          (fun t => if t = ['u', 'd'] then some ['𒌓'] else none)
          CacheState.init ['u', 'd'] = (.ok ['𒌓'], st1, true) ∧
      st1.cache_modified = true ∧
      ∀ file0 : Option StoreContent, ∃ m1,
        file_exit st1 false file0 = (⟨m1, false⟩, some (.data m1)) ∧
        ∃ st2 : CacheState,
          file_enter (some (.data m1)) = .ok (st2, some (.data m1)) ∧
          get_cuneiform_bytes_fetch
              (fun t => if t = ['u', 'd'] then some ['𒌓'] else none)
              st2 ['u', 'd'] = (.ok ['𒌓'], st2, false) :=
  ⟨⟨by decide, by decide, by decide, by decide, by decide⟩,
   C3_cache_round_trip (fun t => if t = ['u', 'd'] then some ['𒌓'] else none)
     CacheState.init ['u', 'd'] ['𒌓']
     (by decide) (by decide) (by decide) (by decide) (by decide)⟩

/-- The pure replacement part of an accent loop: apply every rule's
`replace` without the suffix appends. -/
def apply_pairs : List (Char × Char) → List Char → List Char
  | [], s => s
  | (o, r) :: rest, s => apply_pairs rest (replace_char o [r] s)

theorem replace_char_append (o : Char) (r : List Char) (a b : List Char) :
    replace_char o r (a ++ b) = replace_char o r a ++ replace_char o r b := by
  induction a with
  | nil => rfl
  | cons c cs ih => simp [replace_char, ih]

theorem replace_char_replicate_ne (o : Char) (r : List Char) (d : Char) (k : ℕ)
    (h : d ≠ o) : replace_char o r (List.replicate k d) = List.replicate k d := by
  induction k with
  | zero => rfl
  | succ n ih => simp [List.replicate_succ, replace_char, h, ih]

theorem mem_replace_char_iff (o : Char) (r : List Char) (c : Char) (s : List Char)
    (h1 : c ≠ o) (h2 : c ∉ r) : c ∈ replace_char o r s ↔ c ∈ s := by
  induction s with
  | nil => simp [replace_char]
  | cons d ds ih =>
    by_cases hd : d = o
    · subst hd
      simp [replace_char, ih, h2, h1]
    · simp [replace_char, hd, ih]

theorem apply_pairs_append_replicate (P : List (Char × Char)) (d : Char) :
    ∀ (x : List Char) (n : ℕ), (∀ p ∈ P, p.1 ≠ d) →
    apply_pairs P (x ++ List.replicate n d) = apply_pairs P x ++ List.replicate n d := by
  induction P with
  | nil => intro x n _; rfl
  | cons p rest ih =>
    intro x n h
    cases p with
    | mk o r =>
      have ho : o ≠ d := h (o, r) (List.mem_cons_self _ _)
      simp only [apply_pairs]
      rw [replace_char_append, replace_char_replicate_ne o [r] d n (Ne.symm ho)]
      exact ih (replace_char o [r] x) n (fun q hq => h q (List.mem_cons_of_mem _ hq))

theorem mem_apply_pairs_iff (c : Char) :
    ∀ (P : List (Char × Char)) (s : List Char),
    (∀ p ∈ P, c ≠ p.1 ∧ c ≠ p.2) → (c ∈ apply_pairs P s ↔ c ∈ s) := by
  intro P
  induction P with
  | nil => intro s _; simp [apply_pairs]
  | cons p rest ih =>
    intro s h
    cases p with
    | mk o r =>
      have hh := h (o, r) (List.mem_cons_self _ _)
      simp only [apply_pairs]
      rw [ih (replace_char o [r] s) (fun q hq => h q (List.mem_cons_of_mem _ hq))]
      exact mem_replace_char_iff o [r] c s hh.1 (by simpa using hh.2)

theorem mem_apply_replacements_iff (c : Char) :
    ∀ (P : List (Char × List Char)) (s : List Char),
    (∀ p ∈ P, c ≠ p.1 ∧ c ∉ p.2) → (c ∈ apply_replacements P s ↔ c ∈ s) := by
  intro P
  induction P with
  | nil => intro s _; simp [apply_replacements]
  | cons p rest ih =>
    intro s h
    cases p with
    | mk o r =>
      have hh := h (o, r) (List.mem_cons_self _ _)
      simp only [apply_replacements]
      rw [ih (replace_char o r s) (fun q hq => h q (List.mem_cons_of_mem _ hq))]
      exact mem_replace_char_iff o r c s hh.1 hh.2

/-- Structure of an accent loop: starting from a string of the form
`base ++ replicate k suf`, the loop performs all the replacements on `base`
and appends one more copy of `suf` for each rule whose accented vowel occurs
in `base`, provided the rules never mention `suf`, never produce another
rule's accented vowel, and have pairwise distinct accented vowels. -/
theorem apply_accents_structure (suf : Char) :
    ∀ (P : List (Char × Char)) (base : List Char) (k : ℕ),
    (∀ p ∈ P, p.1 ≠ suf) →
    (∀ p ∈ P, ∀ q ∈ P, p.1 ≠ q.2) →
    (P.map Prod.fst).Nodup →
    apply_accents suf P (base ++ List.replicate k suf) =
      apply_pairs P base ++
        List.replicate (k + (P.filter (fun p => decide (p.1 ∈ base))).length) suf := by
  intro P
  induction P with
  | nil => intro base k _ _ _; simp [apply_accents, apply_pairs]
  | cons p rest ih =>
    intro base k hsuf hprod hnd
    cases p with
    | mk o r =>
      have ho : o ≠ suf := hsuf (o, r) (List.mem_cons_self _ _)
      have hmem : (o ∈ base ++ List.replicate k suf) ↔ o ∈ base := by
        simp [List.mem_append, List.mem_replicate, ho]
      have hnd' := hnd
      rw [List.map_cons, List.nodup_cons] at hnd'
      have hnd1 : o ∉ rest.map Prod.fst := hnd'.1
      have hnd2 : (rest.map Prod.fst).Nodup := hnd'.2
      have hsuf2 : ∀ p ∈ rest, p.1 ≠ suf :=
        fun q hq => hsuf q (List.mem_cons_of_mem _ hq)
      have hprod2 : ∀ p ∈ rest, ∀ q ∈ rest, p.1 ≠ q.2 :=
        fun q hq q2 hq2 =>
          hprod q (List.mem_cons_of_mem _ hq) q2 (List.mem_cons_of_mem _ hq2)
      have hcount : ∀ s1 : List Char, (∀ q ∈ rest, ((q.1 ∈ replace_char o [r] s1) ↔ q.1 ∈ s1)) := by
        intro s1 q hq
        apply mem_replace_char_iff
        · intro he
          exact hnd1 (he ▸ List.mem_map_of_mem Prod.fst hq)
        · have : q.1 ≠ r :=
            hprod q (List.mem_cons_of_mem _ hq) (o, r) (List.mem_cons_self _ _)
          simpa using this
      have hfilter : ∀ s1 : List Char,
          (rest.filter (fun p => decide (p.1 ∈ replace_char o [r] s1))).length =
          (rest.filter (fun p => decide (p.1 ∈ s1))).length := by
        intro s1
        congr 1
        apply List.filter_congr
        intro q hq
        simp [hcount s1 q hq]
      by_cases hob : o ∈ base
      · have hstep : (if o ∈ base ++ List.replicate k suf then
              (base ++ List.replicate k suf) ++ [suf]
            else base ++ List.replicate k suf) =
            base ++ List.replicate (k + 1) suf := by
          rw [if_pos (hmem.2 hob)]
          rw [List.append_assoc, ← List.replicate_succ']
        simp only [apply_accents, hstep]
        rw [replace_char_append, replace_char_replicate_ne o [r] suf (k + 1) (Ne.symm ho)]
        rw [ih (replace_char o [r] base) (k + 1) hsuf2 hprod2 hnd2]
        rw [hfilter base]
        have hfcons : ((o, r) :: rest).filter (fun p => decide (p.1 ∈ base)) =
            (o, r) :: rest.filter (fun p => decide (p.1 ∈ base)) := by
          rw [List.filter_cons]
          simp [hob]
        rw [hfcons]
        simp only [apply_pairs, List.length_cons]
        congr 2
        omega
      · have hstep : (if o ∈ base ++ List.replicate k suf then
              (base ++ List.replicate k suf) ++ [suf]
            else base ++ List.replicate k suf) =
            base ++ List.replicate k suf := by
          rw [if_neg (fun hc => hob (hmem.1 hc))]
        simp only [apply_accents, hstep]
        rw [replace_char_append, replace_char_replicate_ne o [r] suf k (Ne.symm ho)]
        rw [ih (replace_char o [r] base) k hsuf2 hprod2 hnd2]
        rw [hfilter base]
        have hfcons : ((o, r) :: rest).filter (fun p => decide (p.1 ∈ base)) =
            rest.filter (fun p => decide (p.1 ∈ base)) := by
          rw [List.filter_cons]
          simp [hob]
        rw [hfcons]
        rfl

/-- Claim C7 (amended): `_remove_abbreviations` maps the single-character
token with an acute a to `a2`; for every token containing both an acute and a
grave vowel, the result is the fully replaced core followed by one `2` per
distinct acute vowel present and then one `3` per distinct grave vowel
present — every acute-derived `2` precedes every grave-derived `3`, so the
result never ends `32`, and when exactly one distinct acute and one distinct
grave vowel occur the result ends `23`. -/
theorem C7_accent_suffixes (t : List Char)
    (hsep : (TOKEN_SEPARATORS.any (fun sep => t.elem sep)) = false)
    (hac : ∃ p ∈ ACUTE_VOWELS, p.1 ∈ t)
    (hgr : ∃ p ∈ GRAVE_VOWELS, p.1 ∈ t) :
    remove_abbreviations ['á'] = .ok ['a', '2'] ∧
    ∃ core,
      remove_abbreviations t =
        .ok (core ++
          List.replicate ((ACUTE_VOWELS.filter (fun p => decide (p.1 ∈ t))).length) '2' ++
          List.replicate ((GRAVE_VOWELS.filter (fun p => decide (p.1 ∈ t))).length) '3') ∧
      1 ≤ (ACUTE_VOWELS.filter (fun p => decide (p.1 ∈ t))).length ∧
      1 ≤ (GRAVE_VOWELS.filter (fun p => decide (p.1 ∈ t))).length ∧
      ((ACUTE_VOWELS.filter (fun p => decide (p.1 ∈ t))).length = 1 →
        (GRAVE_VOWELS.filter (fun p => decide (p.1 ∈ t))).length = 1 →
        remove_abbreviations t = .ok (core ++ ['2', '3'])) := by
  have hrepa : ∀ p ∈ ACUTE_VOWELS, ∀ q ∈ REPLACEMENT_MAP, p.1 ≠ q.1 ∧ p.1 ∉ q.2 := by
    decide
  have hrepg : ∀ p ∈ GRAVE_VOWELS, ∀ q ∈ REPLACEMENT_MAP, p.1 ≠ q.1 ∧ p.1 ∉ q.2 := by
    decide
  have hga : ∀ p ∈ GRAVE_VOWELS, ∀ q ∈ ACUTE_VOWELS, p.1 ≠ q.1 ∧ p.1 ≠ q.2 := by
    decide
  have hg2 : ∀ p ∈ GRAVE_VOWELS, p.1 ≠ '2' := by decide
  have h0 : remove_abbreviations t =
      .ok (apply_accents '3' GRAVE_VOWELS
            (apply_accents '2' ACUTE_VOWELS
              (apply_replacements REPLACEMENT_MAP t))) := by
    simp only [remove_abbreviations, hsep, Bool.false_eq_true, if_false]
  have hmemA : ∀ p ∈ ACUTE_VOWELS,
      ((p.1 ∈ apply_replacements REPLACEMENT_MAP t) ↔ p.1 ∈ t) := by
    intro p hp
    exact mem_apply_replacements_iff p.1 REPLACEMENT_MAP t (fun q hq => hrepa p hp q hq)
  have hmemG0 : ∀ p ∈ GRAVE_VOWELS,
      ((p.1 ∈ apply_replacements REPLACEMENT_MAP t) ↔ p.1 ∈ t) := by
    intro p hp
    exact mem_apply_replacements_iff p.1 REPLACEMENT_MAP t (fun q hq => hrepg p hp q hq)
  have hA : apply_accents '2' ACUTE_VOWELS (apply_replacements REPLACEMENT_MAP t) =
      apply_pairs ACUTE_VOWELS (apply_replacements REPLACEMENT_MAP t) ++
        List.replicate
          ((ACUTE_VOWELS.filter
            (fun p => decide (p.1 ∈ apply_replacements REPLACEMENT_MAP t))).length) '2' := by
    have h00 := apply_accents_structure '2' ACUTE_VOWELS
      (apply_replacements REPLACEMENT_MAP t) 0 (by decide) (by decide) (by decide)
    rw [List.replicate_zero, List.append_nil, Nat.zero_add] at h00
    exact h00
  have hfa : ACUTE_VOWELS.filter
        (fun p => decide (p.1 ∈ apply_replacements REPLACEMENT_MAP t)) =
      ACUTE_VOWELS.filter (fun p => decide (p.1 ∈ t)) := by
    apply List.filter_congr
    intro p hp
    simp [hmemA p hp]
  have hG : apply_accents '3' GRAVE_VOWELS
        (apply_pairs ACUTE_VOWELS (apply_replacements REPLACEMENT_MAP t) ++
          List.replicate ((ACUTE_VOWELS.filter (fun p => decide (p.1 ∈ t))).length) '2') =
      apply_pairs GRAVE_VOWELS
          (apply_pairs ACUTE_VOWELS (apply_replacements REPLACEMENT_MAP t) ++
            List.replicate ((ACUTE_VOWELS.filter (fun p => decide (p.1 ∈ t))).length) '2') ++
        List.replicate
          ((GRAVE_VOWELS.filter (fun p => decide (p.1 ∈
            apply_pairs ACUTE_VOWELS (apply_replacements REPLACEMENT_MAP t) ++
              List.replicate ((ACUTE_VOWELS.filter
                (fun p => decide (p.1 ∈ t))).length) '2'))).length) '3' := by
    have h00 := apply_accents_structure '3' GRAVE_VOWELS
      (apply_pairs ACUTE_VOWELS (apply_replacements REPLACEMENT_MAP t) ++
        List.replicate ((ACUTE_VOWELS.filter (fun p => decide (p.1 ∈ t))).length) '2')
      0 (by decide) (by decide) (by decide)
    rw [List.replicate_zero, List.append_nil, Nat.zero_add] at h00
    exact h00
  have hfg : GRAVE_VOWELS.filter (fun p => decide (p.1 ∈
        apply_pairs ACUTE_VOWELS (apply_replacements REPLACEMENT_MAP t) ++
          List.replicate ((ACUTE_VOWELS.filter
            (fun p => decide (p.1 ∈ t))).length) '2')) =
      GRAVE_VOWELS.filter (fun p => decide (p.1 ∈ t)) := by
    apply List.filter_congr
    intro p hp
    have h1 : p.1 ∈ apply_pairs ACUTE_VOWELS (apply_replacements REPLACEMENT_MAP t) ↔
        p.1 ∈ apply_replacements REPLACEMENT_MAP t :=
      mem_apply_pairs_iff p.1 ACUTE_VOWELS _ (fun q hq => hga p hp q hq)
    have h3 : p.1 ∉ List.replicate
        ((ACUTE_VOWELS.filter (fun p => decide (p.1 ∈ t))).length) '2' := by
      rw [List.mem_replicate]
      rintro ⟨-, h4⟩
      exact hg2 p hp h4
    rw [decide_eq_decide, List.mem_append, h1, hmemG0 p hp]
    constructor
    · rintro (h4 | h4)
      · exact h4
      · exact absurd h4 h3
    · exact Or.inl
  have hpull : apply_pairs GRAVE_VOWELS
        (apply_pairs ACUTE_VOWELS (apply_replacements REPLACEMENT_MAP t) ++
          List.replicate ((ACUTE_VOWELS.filter (fun p => decide (p.1 ∈ t))).length) '2') =
      apply_pairs GRAVE_VOWELS
          (apply_pairs ACUTE_VOWELS (apply_replacements REPLACEMENT_MAP t)) ++
        List.replicate ((ACUTE_VOWELS.filter (fun p => decide (p.1 ∈ t))).length) '2' :=
    apply_pairs_append_replicate GRAVE_VOWELS '2' _ _ (by decide)
  have hposA : 1 ≤ (ACUTE_VOWELS.filter (fun p => decide (p.1 ∈ t))).length := by
    obtain ⟨p, hp, hpt⟩ := hac
    have hmem : p ∈ ACUTE_VOWELS.filter (fun p => decide (p.1 ∈ t)) :=
      List.mem_filter.2 ⟨hp, by simpa using hpt⟩
    exact List.length_pos.2 (List.ne_nil_of_mem hmem)
  have hposG : 1 ≤ (GRAVE_VOWELS.filter (fun p => decide (p.1 ∈ t))).length := by
    obtain ⟨p, hp, hpt⟩ := hgr
    have hmem : p ∈ GRAVE_VOWELS.filter (fun p => decide (p.1 ∈ t)) :=
      List.mem_filter.2 ⟨hp, by simpa using hpt⟩
    exact List.length_pos.2 (List.ne_nil_of_mem hmem)
  have hmain : remove_abbreviations t =
      .ok (apply_pairs GRAVE_VOWELS
            (apply_pairs ACUTE_VOWELS (apply_replacements REPLACEMENT_MAP t)) ++
          List.replicate ((ACUTE_VOWELS.filter (fun p => decide (p.1 ∈ t))).length) '2' ++
          List.replicate ((GRAVE_VOWELS.filter (fun p => decide (p.1 ∈ t))).length) '3') := by
    rw [h0, hA, hfa, hG, hfg, hpull]
  refine ⟨rfl,
    ⟨apply_pairs GRAVE_VOWELS
      (apply_pairs ACUTE_VOWELS (apply_replacements REPLACEMENT_MAP t)),
     hmain, hposA, hposG, ?_⟩⟩
  intro h1 h2
  rw [hmain, h1, h2, List.append_assoc]
  rfl

/-- Witness for C7 at the token with one acute a and one grave a: the result
is `aa23`. -/
theorem C7_accent_suffixes_witness :
    ((TOKEN_SEPARATORS.any (fun sep => (['á', 'à'] : List Char).elem sep)) = false ∧
      (∃ p ∈ ACUTE_VOWELS, p.1 ∈ (['á', 'à'] : List Char)) ∧
      (∃ p ∈ GRAVE_VOWELS, p.1 ∈ (['á', 'à'] : List Char))) ∧
    (remove_abbreviations ['á'] = .ok ['a', '2'] ∧
      ∃ core,
        remove_abbreviations ['á', 'à'] =
          .ok (core ++
            List.replicate ((ACUTE_VOWELS.filter
              (fun p => decide (p.1 ∈ (['á', 'à'] : List Char)))).length) '2' ++
            List.replicate ((GRAVE_VOWELS.filter
              (fun p => decide (p.1 ∈ (['á', 'à'] : List Char)))).length) '3') ∧
        1 ≤ (ACUTE_VOWELS.filter
          (fun p => decide (p.1 ∈ (['á', 'à'] : List Char)))).length ∧
        1 ≤ (GRAVE_VOWELS.filter
          (fun p => decide (p.1 ∈ (['á', 'à'] : List Char)))).length ∧
        ((ACUTE_VOWELS.filter
            (fun p => decide (p.1 ∈ (['á', 'à'] : List Char)))).length = 1 →
          (GRAVE_VOWELS.filter
            (fun p => decide (p.1 ∈ (['á', 'à'] : List Char)))).length = 1 →
          remove_abbreviations ['á', 'à'] = .ok (core ++ ['2', '3']))) :=
  ⟨⟨by decide, ⟨('á', 'a'), by decide, by decide⟩, ⟨('à', 'a'), by decide, by decide⟩⟩,
   C7_accent_suffixes ['á', 'à'] (by decide)
     ⟨('á', 'a'), by decide, by decide⟩ ⟨('à', 'a'), by decide, by decide⟩⟩

/-- Claim C7 (counterexample): the token with one acute and two distinct grave
vowels contains both an acute-accented and a grave-accented vowel, yet
normalizes to `aae233`, whose last two characters are `33`, not `23` — so the
claim that such a result always ends `23` fails. -/
theorem C7_double_grave_counterexample :
    remove_abbreviations ['á', 'à', 'è'] = .ok ['a', 'a', 'e', '2', '3', '3'] ∧
    (['a', 'a', 'e', '2', '3', '3'] : List Char).reverse.take 2 = ['3', '3'] ∧
    (['a', 'a', 'e', '2', '3', '3'] : List Char).reverse.take 2 ≠ ['3', '2'] ∧
    ('á' ∈ (['á', 'à', 'è'] : List Char)) ∧ ('à' ∈ (['á', 'à', 'è'] : List Char)) := by
  refine ⟨rfl, rfl, ?_, by decide, by decide⟩
  decide

/-- Python `str.split()` with no argument: split on runs of whitespace,
dropping empty words.  The accumulator holds the current word reversed. -/
def py_split_ws_aux : List Char → List Char → List (List Char)
  | [], acc => if acc = [] then [] else [acc.reverse]
  | c :: cs, acc =>
    if py_is_space c then
      if acc = [] then py_split_ws_aux cs []
      else acc.reverse :: py_split_ws_aux cs []
    else py_split_ws_aux cs (c :: acc)

def py_split_ws (s : List Char) : List (List Char) :=
  py_split_ws_aux s []

/-- The token gathering of `ordered_symbol_to_transliterations`:
`sum((list(re.split(TOKEN_REGEX, line.strip())) for line in
transliteration.split()), [])`. -/
def doc_tokens (transliteration : List Char) : List (List Char) :=
  ((py_split_ws transliteration).map (fun line => re_split (py_strip line))).flatten

/-- `result[cuneiform_symbol].append(token)` guarded by
`if token not in result[cuneiform_symbol]`: update the (unique) entry of the
ordered dict holding key `g`. -/
def od_append_token : List (List Char × List (List Char)) → List Char → List Char →
    List (List Char × List (List Char))
  | [], _, _ => []
  | (k, v) :: rest, g, token =>
    if k = g then (k, if token ∈ v then v else v ++ [token]) :: rest
    else (k, v) :: od_append_token rest g token

/-- The token loop of `ordered_symbol_to_transliterations`: strip the marker
characters from the token, resolve it, on failure either collect it in the
unrecognised set (modelled as a deduplicated list) and continue, or
propagate; on success create the ordered-dict entry if absent and append the
stripped token to it if new.  `get_cuneiform` leaves the cache state
unchanged, so `self` is passed along unchanged. -/
def ord_aux (self : CacheState) (return_unrecognised : Bool) :
    List (List Char) → List (List Char × List (List Char)) → List (List Char) →
    Except PyExc (List (List Char × List (List Char)) × List (List Char))
  | [], result, unrecognised => .ok (result, unrecognised)
  | token0 :: rest, result, unrecognised =>
    let token := get_stripped_transliteration token0
    match (get_cuneiform self token true).1 with
    | .error e =>
      if return_unrecognised then
        ord_aux self return_unrecognised rest result
          (if token ∈ unrecognised then unrecognised else unrecognised ++ [token])
      else .error e
    | .ok g =>
      ord_aux self return_unrecognised rest
        (od_append_token
          (if dict_get result g = none then result ++ [(g, [])] else result) g token)
        unrecognised

/-- `ordered_symbol_to_transliterations(cache, transliteration,
return_unrecognised)`; the unrecognised component is only meaningful when the
flag is set, mirroring the Python return shapes. -/
def ordered_symbol_to_transliterations (self : CacheState)
    (transliteration : List Char) (return_unrecognised : Bool) :
    Except PyExc (List (List Char × List (List Char)) × List (List Char)) :=
  ord_aux self return_unrecognised (doc_tokens transliteration) [] []

/-- One successful step of the loop, as a function of the resolved
(glyph, stripped token) pair. -/
def sign_list_step (result : List (List Char × List (List Char)))
    (p : List Char × List Char) : List (List Char × List (List Char)) :=
  od_append_token
    (if dict_get result p.1 = none then result ++ [(p.1, [])] else result) p.1 p.2

/-- The (glyph, stripped token) pairs of the tokens that resolve
successfully, in order. -/
def resolved_pairs (self : CacheState) (tokens : List (List Char)) :
    List (List Char × List Char) :=
  tokens.filterMap (fun token0 =>
    match (get_cuneiform self (get_stripped_transliteration token0) true).1 with
    | .ok g => some (g, get_stripped_transliteration token0)
    | .error _ => none)

/-- Append an element unless already present (first-seen deduplication). -/
def fs_insert {α : Type} [DecidableEq α] (l : List α) (a : α) : List α :=
  if a ∈ l then l else l ++ [a]

/-- Deduplicate a list keeping the first occurrence of each element, in
order. -/
def first_seen {α : Type} [DecidableEq α] (l : List α) : List α :=
  l.foldl fs_insert []

/-- The sign list as the spec describes it, written from the spec's words as
the refinement target: the keys are the distinct resolved glyph sequences in
first-seen order, and each key maps to the distinct stripped tokens that
resolved to it, in first-seen order. -/
def spec_of (pairs : List (List Char × List Char)) :
    List (List Char × List (List Char)) :=
  (first_seen (pairs.map Prod.fst)).map
    (fun g => (g, first_seen
      ((pairs.filter (fun p => decide (p.1 = g))).map Prod.snd)))

theorem first_seen_snoc {α : Type} [DecidableEq α] (xs : List α) (x : α) :
    first_seen (xs ++ [x]) = fs_insert (first_seen xs) x := by
  simp [first_seen, List.foldl_append]

theorem mem_foldl_fs_insert {α : Type} [DecidableEq α] (xs : List α) :
    ∀ (acc : List α) (a : α), a ∈ xs.foldl fs_insert acc ↔ (a ∈ acc ∨ a ∈ xs) := by
  induction xs with
  | nil => intro acc a; simp
  | cons x xs ih =>
    intro acc a
    rw [List.foldl_cons, ih]
    unfold fs_insert
    by_cases hx : x ∈ acc
    · rw [if_pos hx]
      simp only [List.mem_cons]
      constructor
      · rintro (h | h)
        · exact Or.inl h
        · exact Or.inr (Or.inr h)
      · rintro (h | h | h)
        · exact Or.inl h
        · exact Or.inl (h ▸ hx)
        · exact Or.inr h
    · rw [if_neg hx]
      simp only [List.mem_append, List.mem_singleton, List.mem_cons]
      tauto

theorem mem_first_seen {α : Type} [DecidableEq α] (xs : List α) (a : α) :
    a ∈ first_seen xs ↔ a ∈ xs := by
  rw [first_seen, mem_foldl_fs_insert]
  simp

theorem foldl_fs_insert_nodup {α : Type} [DecidableEq α] (xs : List α) :
    ∀ acc : List α, acc.Nodup → (xs.foldl fs_insert acc).Nodup := by
  induction xs with
  | nil => intro acc h; exact h
  | cons x xs ih =>
    intro acc h
    rw [List.foldl_cons]
    apply ih
    unfold fs_insert
    by_cases hx : x ∈ acc
    · rw [if_pos hx]; exact h
    · rw [if_neg hx]
      rw [List.nodup_append]
      exact ⟨h, List.nodup_singleton x,
        fun a ha hax => hx ((List.mem_singleton.1 hax) ▸ ha)⟩

theorem first_seen_nodup {α : Type} [DecidableEq α] (xs : List α) :
    (first_seen xs).Nodup :=
  foldl_fs_insert_nodup xs [] List.nodup_nil

theorem dict_get_map_none (K : List (List Char)) (f : List Char → List (List Char))
    (g : List Char) :
    dict_get (K.map fun k => (k, f k)) g = none ↔ g ∉ K := by
  induction K with
  | nil => simp [dict_get]
  | cons k ks ih =>
    by_cases hk : k = g
    · subst hk
      simp [dict_get]
    · rw [List.map_cons]
      simp only [dict_get, if_neg hk, ih, List.mem_cons]
      constructor
      · rintro h (he | he)
        · exact hk he.symm
        · exact h he
      · intro h he
        exact h (Or.inr he)

theorem od_append_token_on_map (g token : List Char) :
    ∀ (K : List (List Char)) (f : List Char → List (List Char)),
    K.Nodup → g ∈ K →
    od_append_token (K.map fun k => (k, f k)) g token =
      K.map (fun k => (k,
        if k = g then (if token ∈ f g then f g else f g ++ [token]) else f k)) := by
  intro K
  induction K with
  | nil => intro f _ hg; exact absurd hg (List.not_mem_nil g)
  | cons k ks ih =>
    intro f hnd hg
    rw [List.nodup_cons] at hnd
    rw [List.map_cons, List.map_cons]
    by_cases hk : k = g
    · subst hk
      simp only [od_append_token, eq_self_iff_true, if_true]
      congr 1
      apply List.map_congr_left
      intro x hx
      have hxg : ¬ x = k := fun he => hnd.1 (he ▸ hx)
      rw [if_neg hxg]
    · rcases List.mem_cons.1 hg with he | hgs
      · exact absurd he.symm hk
      · simp only [od_append_token, if_neg hk]
        rw [ih f hnd.2 hgs]

theorem od_append_token_not_mem (g token : List Char) :
    ∀ r : List (List Char × List (List Char)),
    (∀ p ∈ r, p.1 ≠ g) → od_append_token r g token = r := by
  intro r
  induction r with
  | nil => intro _; rfl
  | cons p rest ih =>
    intro h
    cases p with
    | mk k v =>
      have hk : k ≠ g := h (k, v) (List.mem_cons_self _ _)
      simp only [od_append_token, if_neg hk]
      rw [ih (fun q hq => h q (List.mem_cons_of_mem _ hq))]

theorem od_append_token_append (g token : List Char) (v : List (List Char)) :
    ∀ r : List (List Char × List (List Char)),
    (∀ p ∈ r, p.1 ≠ g) →
    od_append_token (r ++ [(g, v)]) g token =
      r ++ [(g, if token ∈ v then v else v ++ [token])] := by
  intro r
  induction r with
  | nil =>
    intro _
    simp [od_append_token]
  | cons p rest ih =>
    intro h
    cases p with
    | mk k w =>
      have hk : k ≠ g := h (k, w) (List.mem_cons_self _ _)
      simp only [List.cons_append, od_append_token, if_neg hk, List.append_eq]
      rw [ih (fun q hq => h q (List.mem_cons_of_mem _ hq))]

theorem sign_list_step_spec (ps : List (List Char × List Char)) (g token : List Char) :
    sign_list_step (spec_of ps) (g, token) = spec_of (ps ++ [(g, token)]) := by
  have hKsnoc : first_seen ((ps ++ [(g, token)]).map Prod.fst) =
      fs_insert (first_seen (ps.map Prod.fst)) g := by
    rw [List.map_append, List.map_cons, List.map_nil]
    exact first_seen_snoc _ g
  have hW : ∀ k : List Char, k ≠ g →
      (ps ++ [(g, token)]).filter (fun p => decide (p.1 = k)) =
        ps.filter (fun p => decide (p.1 = k)) := by
    intro k hk
    rw [List.filter_append]
    have hnil : List.filter (fun p => decide (p.1 = k)) [((g : List Char), token)] = [] := by
      simp [Ne.symm hk]
    rw [hnil, List.append_nil]
  have hWg : (ps ++ [(g, token)]).filter (fun p => decide (p.1 = g)) =
      ps.filter (fun p => decide (p.1 = g)) ++ [(g, token)] := by
    rw [List.filter_append]
    congr 1
    simp
  by_cases hg : g ∈ ps.map Prod.fst
  · have hgK : g ∈ first_seen (ps.map Prod.fst) := (mem_first_seen _ g).2 hg
    have hins : fs_insert (first_seen (ps.map Prod.fst)) g =
        first_seen (ps.map Prod.fst) := by
      unfold fs_insert
      rw [if_pos hgK]
    unfold sign_list_step spec_of
    have hdg : ¬ dict_get ((first_seen (ps.map Prod.fst)).map
        (fun k => (k, first_seen
          ((ps.filter (fun p => decide (p.1 = k))).map Prod.snd)))) g = none := by
      rw [dict_get_map_none]
      intro hng
      exact hng hgK
    rw [if_neg hdg]
    rw [od_append_token_on_map g token _ _ (first_seen_nodup _) hgK]
    rw [hKsnoc, hins]
    apply List.map_congr_left
    intro k hk
    by_cases hkg : k = g
    · subst hkg
      rw [if_pos rfl, hWg]
      rw [List.map_append, List.map_cons, List.map_nil, first_seen_snoc]
      unfold fs_insert
      by_cases hmem : token ∈ first_seen
          ((ps.filter (fun p => decide (p.1 = k))).map Prod.snd)
      · rw [if_pos hmem, if_pos hmem]
      · rw [if_neg hmem, if_neg hmem]
    · rw [if_neg hkg, hW k hkg]
  · have hgK : g ∉ first_seen (ps.map Prod.fst) := fun hc => hg ((mem_first_seen _ g).1 hc)
    have hins : fs_insert (first_seen (ps.map Prod.fst)) g =
        first_seen (ps.map Prod.fst) ++ [g] := by
      unfold fs_insert
      rw [if_neg hgK]
    unfold sign_list_step spec_of
    have hdg : dict_get ((first_seen (ps.map Prod.fst)).map
        (fun k => (k, first_seen
          ((ps.filter (fun p => decide (p.1 = k))).map Prod.snd)))) g = none :=
      (dict_get_map_none _ _ g).2 hgK
    rw [if_pos hdg]
    have hkeys : ∀ p ∈ (first_seen (ps.map Prod.fst)).map
        (fun k => (k, first_seen
          ((ps.filter (fun p => decide (p.1 = k))).map Prod.snd))), p.1 ≠ g := by
      intro p hp
      obtain ⟨k, hkmem, hkeq⟩ := List.mem_map.1 hp
      intro he
      apply hgK
      rw [← he, ← hkeq]
      exact hkmem
    rw [od_append_token_append g token [] _ hkeys]
    rw [hKsnoc, hins, List.map_append, List.map_cons, List.map_nil]
    have hfnil : ps.filter (fun p => decide (p.1 = g)) = [] := by
      rw [List.filter_eq_nil_iff]
      intro p hp
      simp only [decide_eq_true_eq]
      intro he
      exact hg (he ▸ List.mem_map_of_mem Prod.fst hp)
    congr 1
    · apply List.map_congr_left
      intro k hk
      have hkg : k ≠ g := fun he => hgK (he ▸ hk)
      rw [hW k hkg]
    · rw [hWg, hfnil]
      rfl

theorem foldl_sign_list_spec (ps : List (List Char × List Char)) :
    ps.foldl sign_list_step [] = spec_of ps := by
  induction ps using List.reverseRecOn with
  | nil => rfl
  | append_singleton ps p ih =>
    rw [List.foldl_append, List.foldl_cons, List.foldl_nil, ih]
    cases p with
    | mk g token => exact sign_list_step_spec ps g token

theorem ord_aux_ok (self : CacheState) :
    ∀ (tokens : List (List Char)) (result : List (List Char × List (List Char)))
      (unrec : List (List Char)),
    ∃ u, ord_aux self true tokens result unrec =
      .ok ((resolved_pairs self tokens).foldl sign_list_step result, u) := by
  intro tokens
  induction tokens with
  | nil =>
    intro result unrec
    exact ⟨unrec, rfl⟩
  | cons t ts ih =>
    intro result unrec
    cases hg : (get_cuneiform self (get_stripped_transliteration t) true).1 with
    | ok g =>
      obtain ⟨u, hu⟩ := ih
        (od_append_token
          (if dict_get result g = none then result ++ [(g, [])] else result)
          g (get_stripped_transliteration t)) unrec
      refine ⟨u, ?_⟩
      simp only [ord_aux, hg]
      rw [hu]
      simp only [resolved_pairs, List.filterMap_cons, hg, List.foldl_cons]
      rfl
    | error e =>
      obtain ⟨u, hu⟩ := ih result
        (if get_stripped_transliteration t ∈ unrec then unrec
         else unrec ++ [get_stripped_transliteration t])
      refine ⟨u, ?_⟩
      simp only [ord_aux, hg, if_true]
      rw [hu]
      simp only [resolved_pairs, List.filterMap_cons, hg]

/-- Claim C9: for every input text, the sign-list builder returns the ordered
mapping whose keys are the distinct resolved glyph sequences in first-seen
order, each mapping to the marker-stripped surface tokens that resolved to it
in first-seen order with duplicates omitted; in particular over `ud ud ud2`
with both keys resolving to the same glyph it yields exactly one entry
holding that glyph and the token list `ud`, `ud2`. -/
theorem C9_sign_list_builder (self : CacheState) (text : List Char) :
    (∃ u, ordered_symbol_to_transliterations self text true =
        .ok (spec_of (resolved_pairs self (doc_tokens text)), u)) ∧
    ordered_symbol_to_transliterations
        (CacheState.mk [(['u', 'd'], ['𒌓']), (['u', 'd', '2'], ['𒌓'])] false)
        ['u', 'd', ' ', 'u', 'd', ' ', 'u', 'd', '2'] true =
      .ok ([(['𒌓'], [['u', 'd'], ['u', 'd', '2']])], []) := by
  constructor
  · obtain ⟨u, hu⟩ := ord_aux_ok self (doc_tokens text) [] []
    refine ⟨u, ?_⟩
    rw [ordered_symbol_to_transliterations, hu, foldl_sign_list_spec]
  · rfl

end Cuneify
